import Mathlib

/-!
ynab-receipts: receipt text extraction and categorisation.

A shallow embedding of `main.go`.  Go strings are modelled as lists of
Unicode code points (`Str`); the standard-library functions the program
calls (`strings.ToLower`, `strings.Contains`, `strings.TrimSpace`,
`strings.Split`, `regexp.FindAllStringSubmatch`, `strconv.ParseFloat`)
are modelled from their documented behaviour.  Go gives no order to the
iteration of a map: every function that ranges over `CATEGORY_MAP` takes
the order of that iteration as an argument.
-/

namespace YnabReceipts

/-- A Go string, as the list of its code points. -/
abbrev Str := List Char

/-! ## The categorizer (main.go:26-45) -/

/-- The entries of `CATEGORY_MAP` (main.go:27-32), in the order of the
composite literal. -/
def CATEGORY_MAP : List (Str × List Str) :=
  [ ("groceries".toList, ["walmart".toList, "whole foods".toList, "grocery".toList]),
    ("dining".toList, ["restaurant".toList, "cafe".toList, "diner".toList]),
    ("electronics".toList, ["best buy".toList, "electronics".toList, "tech".toList]) ]

/-- The ASCII branch of `unicode.ToLower`: `A`..`Z` are moved to `a`..`z`. -/
def asciiLower (c : Char) : Char :=
  if 'A' ≤ c ∧ c ≤ 'Z' then Char.ofNat (c.toNat + 32) else c

/-- Go `unicode.ToLower`: ASCII letters are handled directly, any other
code point is looked up in the case tables of the `unicode` package, here
the argument `tbl`. -/
def unicodeToLower (tbl : Char → Char) (c : Char) : Char :=
  if c.toNat ≤ 0x7F then asciiLower c else tbl c

/-- Go `strings.ToLower`. -/
def stringsToLower (tbl : Char → Char) (s : Str) : Str :=
  s.map (unicodeToLower tbl)

/-- Go `strings.HasPrefix`. -/
def stringsHasPrefix : Str → Str → Bool
  | _, [] => true
  | [], _ :: _ => false
  | c :: cs, p :: ps => c == p && stringsHasPrefix cs ps

/-- Go `strings.Contains s substr`: `substr` occurs in `s`. -/
def stringsContains : Str → Str → Bool
  | [], substr => stringsHasPrefix [] substr
  | c :: cs, substr => stringsHasPrefix (c :: cs) substr || stringsContains cs substr

/-- The inner loop of `categorizeItem` (main.go:38-42): `some category` when
the loop returns, `none` when it falls through. -/
def keywordLoop (descriptionLower category : Str) : List Str → Option Str
  | [] => none
  | keyword :: rest =>
    if stringsContains descriptionLower keyword then some category
    else keywordLoop descriptionLower category rest

/-- The outer loop of `categorizeItem` (main.go:37-44) over the entries of
the map in the order `order`. -/
def categoryLoop (descriptionLower : Str) : List (Str × List Str) → Str
  | [] => "uncategorized".toList
  | (category, keywords) :: rest =>
    match keywordLoop descriptionLower category keywords with
    | some c => c
    | none => categoryLoop descriptionLower rest

/-- The function `categorizeItem` (main.go:35-45); `order` is the order in
which `range CATEGORY_MAP` visits the entries on this call. -/
def categorizeItem (tbl : Char → Char) (order : List (Str × List Str))
    (description : Str) : Str :=
  categoryLoop (stringsToLower tbl description) order

/-- An iteration order of `CATEGORY_MAP`: every entry once, in some order. -/
def IsIterationOrder (order : List (Str × List Str)) : Prop :=
  order.Perm CATEGORY_MAP

/-- The lowercased description contains a keyword listed under `category`. -/
def MatchesCategory (descriptionLower category : Str) : Prop :=
  ∃ keywords keyword, (category, keywords) ∈ CATEGORY_MAP ∧ keyword ∈ keywords ∧
    keyword <:+: descriptionLower

/-- The categories of `CATEGORY_MAP` that have a keyword in the lowercased
description, in the order of the literal. -/
def matchingCategories (descriptionLower : Str) : List Str :=
  (CATEGORY_MAP.filter (fun e => e.2.any (stringsContains descriptionLower))).map Prod.fst

/-! ## The line-item pattern (main.go:77-78) -/

/-- Go `unicode.IsSpace`: the Latin-1 white space and the code points of the
`White_Space` table. -/
def unicodeIsSpace (c : Char) : Bool :=
  (0x09 ≤ c.toNat && c.toNat ≤ 0x0D) || c.toNat == 0x20 || c.toNat == 0x85 ||
  c.toNat == 0xA0 || c.toNat == 0x1680 || (0x2000 ≤ c.toNat && c.toNat ≤ 0x200A) ||
  c.toNat == 0x2028 || c.toNat == 0x2029 || c.toNat == 0x202F || c.toNat == 0x205F ||
  c.toNat == 0x3000

/-- Go `strings.TrimSpace`: leading and trailing white space removed. -/
def stringsTrimSpace (s : Str) : Str :=
  ((s.dropWhile unicodeIsSpace).reverse.dropWhile unicodeIsSpace).reverse

/-- The fragment of the `regexp/syntax` language the pattern is written in:
a character class, a class repeated one or more times (greedy `x+` or lazy
`x+?`), concatenation and a capturing group. -/
inductive Regex where
  | cls (p : Char → Bool)
  | plus (p : Char → Bool) (greedy : Bool)
  | seq (a b : Regex)
  | group (a : Regex)

/-- The remainders left by `x+?` on `s`, in the order a backtracking search
tries them: fewest repetitions first. -/
def lazyRests (p : Char → Bool) : Str → List Str
  | [] => []
  | c :: cs => if p c then cs :: lazyRests p cs else []

/-- The remainders left by `x+` on `s`, in the order a backtracking search
tries them: most repetitions first. -/
def greedyRests (p : Char → Bool) : Str → List Str
  | [] => []
  | c :: cs => if p c then greedyRests p cs ++ [cs] else []

/-- All the ways `re` matches a prefix of `s`, in the order a backtracking
search finds them (Go's leftmost-first preference): each is the list of the
captured texts, in the order the groups open, and the unmatched remainder. -/
def Regex.run : Regex → Str → List (List Str × Str)
  | .cls _, [] => []
  | .cls p, c :: cs => if p c then [([], cs)] else []
  | .plus p true, s => (greedyRests p s).map (fun r => ([], r))
  | .plus p false, s => (lazyRests p s).map (fun r => ([], r))
  | .seq a b, s =>
    (a.run s).flatMap (fun m => (b.run m.2).map (fun m' => (m.1 ++ m'.1, m'.2)))
  | .group a, s =>
    (a.run s).map (fun m => (s.take (s.length - m.2.length) :: m.1, m.2))

/-- The match of `re` the search prefers among those starting at the head of
`s`: submatch 0 (the whole match), then the groups, and the remainder. -/
def Regex.matchHere (re : Regex) (s : Str) : Option (List Str × Str) :=
  ((Regex.group re).run s).head?

/-- The leftmost match of `re` in `s`: the first position, from the left, at
which a match starts, and the preferred match there. -/
def Regex.findFirst (re : Regex) : Str → Option (List Str × Str)
  | [] => re.matchHere []
  | c :: cs =>
    match re.matchHere (c :: cs) with
    | some m => some m
    | none => Regex.findFirst re cs

/-- The loop of `FindAllStringSubmatch`: successive non-overlapping leftmost
matches, each search starting where the previous match ended.  (Every
expression of the fragment consumes at least one character, so the rule for
empty matches never applies.) -/
def Regex.findAllLoop (re : Regex) : Nat → Str → List (List Str)
  | 0, _ => []
  | fuel + 1, s =>
    match re.findFirst s with
    | none => []
    | some m => m.1 :: Regex.findAllLoop re fuel m.2

/-- Go `(*Regexp).FindAllStringSubmatch(s, -1)`. -/
def Regex.findAllStringSubmatch (re : Regex) (s : Str) : List (List Str) :=
  re.findAllLoop (s.length + 1) s

/-- The class `.` without the `s` flag: any character but a newline. -/
def isDot (c : Char) : Bool := c != '\n'

/-- The class `\s` of `regexp/syntax`: tab, newline, form feed, carriage
return, space. -/
def isPerlSpace (c : Char) : Bool :=
  c == '\t' || c == '\n' || c == Char.ofNat 0x0C || c == '\r' || c == ' '

/-- The class `\d`: an ASCII digit. -/
def isPerlDigit (c : Char) : Bool := decide ('0' ≤ c ∧ c ≤ '9')

/-- The second group of the pattern, `(\d+\.\d{2})`. -/
def amountRegex : Regex :=
  .group (.seq (.plus isPerlDigit true)
    (.seq (.cls (fun c => c == '.')) (.seq (.cls isPerlDigit) (.cls isPerlDigit))))

/-- The pattern after the first group, `\s+(\d+\.\d{2})`. -/
def tailRegex : Regex := .seq (.plus isPerlSpace true) amountRegex

/-- The pattern of main.go:77 with its flag read: `(.+?)\s+(\d+\.\d{2})`.
The flag `(?m)` changes only what `^` and `$` match, and the pattern has
neither. -/
def pattern : Regex := .seq (.group (.plus isDot false)) tailRegex

/-- The form of an amount, the text of the second group: one or more digits,
a point and two digits. -/
def IsAmount (a : Str) : Prop :=
  ∃ ds d1 d2, a = ds ++ ['.', d1, d2] ∧ ds ≠ [] ∧ (∀ c ∈ ds, isPerlDigit c = true) ∧
    isPerlDigit d1 = true ∧ isPerlDigit d2 = true

/-- The form of a match of the pattern: one or more characters other than a
newline, one or more characters of the class `\s`, and an amount. -/
def IsOccurrence (desc ws amt : Str) : Prop :=
  desc ≠ [] ∧ (∀ c ∈ desc, c ≠ '\n') ∧ ws ≠ [] ∧ (∀ c ∈ ws, isPerlSpace c = true) ∧
    IsAmount amt

/-- Some match of the pattern starts at the head of `s`. -/
def StartsMatch (s : Str) : Prop :=
  ∃ desc ws amt rest, IsOccurrence desc ws amt ∧ s = desc ++ ws ++ amt ++ rest

/-- White space of the class `\s` followed by an amount stands at the head
of `s`. -/
def StartsAmount (s : Str) : Prop :=
  ∃ ws amt rest, ws ≠ [] ∧ (∀ c ∈ ws, isPerlSpace c = true) ∧ IsAmount amt ∧
    s = ws ++ amt ++ rest

/-- A description as C4 takes it: not empty, no white space at either end,
no newline, and nowhere in it white space followed by an amount. -/
def IsCleanDescription (d : Str) : Prop :=
  d ≠ [] ∧ (∀ c, d.head? = some c → unicodeIsSpace c = false) ∧
    (∀ c, d.getLast? = some c → unicodeIsSpace c = false) ∧ (∀ c ∈ d, c ≠ '\n') ∧
    ∀ pre t, d = pre ++ t → ¬ StartsAmount t

/-- A decision procedure for `IsCleanDescription`. -/
def cleanCheck (d : Str) : Bool :=
  !d.isEmpty && d.head?.all (fun c => !unicodeIsSpace c) &&
    d.getLast?.all (fun c => !unicodeIsSpace c) && d.all (fun c => c != '\n') &&
    d.tails.all (fun t => (tailRegex.run t).isEmpty)

/-- A decision procedure for `IsAmount`: the second group matches the whole
of `a`. -/
def amountCheck (a : Str) : Bool :=
  (amountRegex.run a).any (fun m => m.2.isEmpty)

/-! ## Line items (main.go:75-90) -/

/-- One element of `lineItems`: the map with the keys `description`, `amount`
and `category`. -/
structure LineItem where
  description : Str
  amount : Str
  category : Str
  deriving DecidableEq, Repr

/-- The loop of main.go:79-88 over the matches; `orders i` is the order in
which `CATEGORY_MAP` is iterated by the call of `categorizeItem` for match
number `i`. -/
def lineItemsLoop (tbl : Char → Char) (orders : Nat → List (Str × List Str)) :
    Nat → List (List Str) → List LineItem
  | _, [] => []
  | i, m :: rest =>
    let description := stringsTrimSpace (m.getD 1 [])
    let amount := m.getD 2 []
    let category := categorizeItem tbl (orders i) description
    ⟨description, amount, category⟩ :: lineItemsLoop tbl orders (i + 1) rest

/-- The line-item parsing step of `processReceiptImage` (main.go:75-90), from
the extracted text on. -/
def extractLineItems (tbl : Char → Char) (orders : Nat → List (Str × List Str))
    (extractedText : Str) : List LineItem :=
  lineItemsLoop tbl orders 0 (pattern.findAllStringSubmatch extractedText)

/-- The function `processReceiptImage` (main.go:48-91).  Loading the image,
thresholding it and recognising its text are the work of gocv and
gosseract: `readText` stands for main.go:49-73 and fails when the image
cannot be read or the recognition fails. -/
def processReceiptImage (readText : Str → Except Str Str) (tbl : Char → Char)
    (orders : Nat → List (Str × List Str)) (imagePath : Str) :
    Except Str (List LineItem) :=
  match readText imagePath with
  | .error err => .error err
  | .ok extractedText => .ok (extractLineItems tbl orders extractedText)

/-! ## Transactions (main.go:94-115) -/

/-- The number of binary digits of `n`, by halving; `fuel` bounds the number
of halvings. -/
def bitLength : Nat → Nat → Nat
  | 0, _ => 0
  | fuel + 1, n => if n = 0 then 0 else bitLength fuel (n / 2) + 1

/-- The integer nearest to `num / den`, a tie going to the even one (the
IEEE 754 default rounding). -/
def roundHalfEven (num den : Nat) : Nat :=
  let q := num / den
  let r := num % den
  if 2 * r < den then q
  else if den < 2 * r then q + 1
  else if q % 2 = 0 then q else q + 1

/-- A finite non-negative `float64`: the value `mant * 2 ^ exp`, with
`mant < 2 ^ 53` and `-1074 ≤ exp ≤ 971`. -/
structure Float64 where
  mant : Nat
  exp : Int
  deriving DecidableEq, Repr

/-- The `float64` nearest to the positive rational `num / den` (round to
nearest, ties to even), or `none` when the rounded value is beyond the
largest finite `float64`. -/
def roundFloat64 (num den : Nat) : Option Float64 :=
  if num = 0 then some ⟨0, 0⟩
  else
    -- `l` or `l - 1` is the exponent of the leading bit of `num / den`
    let l : Int := (bitLength num num : Int) - (bitLength den den : Int)
    let lead : Int :=
      if den * 2 ^ l.toNat ≤ num * 2 ^ (-l).toNat then l else l - 1
    let e : Int := max (lead - 52) (-1074)
    let m := roundHalfEven (num * 2 ^ (-e).toNat) (den * 2 ^ e.toNat)
    let r : Float64 := if m = 2 ^ 53 then ⟨2 ^ 52, e + 1⟩ else ⟨m, e⟩
    if 971 < r.exp then none else some r

/-- The value of a string of ASCII digits, read in base ten. -/
def digitsValue (s : Str) : Nat :=
  s.foldl (fun acc c => 10 * acc + (c.toNat - '0'.toNat)) 0

/-- Go `strconv.ParseFloat(s, 64)` on the strings the pattern captures, digits
with an optional point and further digits: the `float64` nearest to the
decimal value; an error (`none`) for a value out of range and for a string
not of that form. -/
def parseFloat (s : Str) : Option Float64 :=
  let intPart := s.takeWhile isPerlDigit
  let afterInt := s.dropWhile isPerlDigit
  match afterInt with
  | [] => if intPart = [] then none else roundFloat64 (digitsValue intPart) 1
  | c :: frac =>
    if c = '.' ∧ frac.all isPerlDigit ∧ ¬ (intPart = [] ∧ frac = []) then
      roundFloat64 (digitsValue (intPart ++ frac)) (10 ^ frac.length)
    else none

/-- The `float64` product `x * y`: the exact product, rounded. -/
def Float64.mul (x y : Float64) : Option Float64 :=
  roundFloat64 (x.mant * y.mant * 2 ^ (x.exp + y.exp).toNat)
    (2 ^ (-(x.exp + y.exp)).toNat)

/-- The constant `1000` as a `float64`. -/
def float1000 : Float64 := ⟨1000, 0⟩

/-- Go `int(f)` for a finite non-negative `float64`: the fraction is
discarded. -/
def Float64.toInt (x : Float64) : Int :=
  ((x.mant * 2 ^ x.exp.toNat / 2 ^ (-x.exp).toNat : Nat) : Int)

/-- One element of `transactions` (main.go:104-113). -/
structure Transaction where
  account_id : Str
  date : Str
  amount : Int
  payee_name : Str
  category_id : Str
  memo : Str
  cleared : Str
  approved : Bool
  deriving DecidableEq, Repr

/-- The value of the key `amount` of a transaction (main.go:100-107):
`int(amount * 1000)` of the parsed amount, or the error of `ParseFloat`. -/
def transactionAmount (amount : Str) : Option Int :=
  match parseFloat amount with
  | none => none
  | some f =>
    match f.mul float1000 with
    | none => none
    | some g => some g.toInt

/-- The loop of `addTransactionsToYNAB` that builds `transactions`
(main.go:98-115); `none` is the early `return err`. -/
def buildTransactions (ACCOUNT_ID : Str) : List LineItem → Option (List Transaction)
  | [] => some []
  | item :: rest =>
    match transactionAmount item.amount with
    | none => none
    | some amount =>
      match buildTransactions ACCOUNT_ID rest with
      | none => none
      | some transactions =>
        some (⟨ACCOUNT_ID, "2024-10-06".toList, amount, item.description, item.category,
          "Imported from receipt".toList, "cleared".toList, true⟩ :: transactions)

/-! ## Startup and the main loop (main.go:147-189) -/

/-- Go `strings.Split(s, sep)` for a separator of one character: the pieces
between the separators, one more than there are separators. -/
def stringsSplit (sep : Char) : Str → List Str
  | [] => [[]]
  | c :: cs =>
    if c = sep then [] :: stringsSplit sep cs
    else
      match stringsSplit sep cs with
      | [] => [[c]]
      | piece :: pieces => (c :: piece) :: pieces

/-- The three package variables set at startup (main.go:20-24). -/
structure Credentials where
  YNAB_ACCESS_TOKEN : Str
  BUDGET_ID : Str
  ACCOUNT_ID : Str
  deriving DecidableEq, Repr

/-- The startup credential check (main.go:148-161) on the result of reading
`credentials.txt`: the message of `log.Fatalf`, or the credentials. -/
def loadCredentials (readFile : Except Str Str) : Except Str Credentials :=
  match readFile with
  | .error err => .error ("failed to read credentials file: ".toList ++ err)
  | .ok credentials =>
    let credentialsLines := stringsSplit '\n' credentials
    if credentialsLines.length < 3 then
      .error ("credentials file should contain at least three lines: ".toList ++
        "YNAB_ACCESS_TOKEN, BUDGET_ID, ACCOUNT_ID".toList)
    else
      .ok ⟨stringsTrimSpace (credentialsLines.getD 0 []),
        stringsTrimSpace (credentialsLines.getD 1 []),
        stringsTrimSpace (credentialsLines.getD 2 [])⟩

/-- An entry of the listing of the receipts folder. -/
structure DirEntry where
  name : Str
  isDir : Bool
  deriving DecidableEq, Repr

/-- What one iteration of the main loop writes: the line items
(main.go:180) or the log line of a failure (main.go:176). -/
inductive Output where
  | printed (lineItems : List LineItem)
  | logged (name : Str) (err : Str)
  deriving DecidableEq, Repr

/-- The path the main loop hands to `processReceiptImage` (main.go:173). -/
def imagePathOf (receiptFile : DirEntry) : Str :=
  "receipts".toList ++ "/".toList ++ receiptFile.name

/-- The output of an iteration, from the result of the processing. -/
def outputOf (receiptFile : DirEntry) : Except Str (List LineItem) → Output
  | .error err => .logged receiptFile.name err
  | .ok lineItems => .printed lineItems

/-- The main loop (main.go:169-186) over the directory listing.  `process`
is the per-receipt processing, which may fail and may change the state of
the world `σ`.  The result lists, in order, every call of `process` (the
path it was given) with what the iteration wrote, and gives the final
state. -/
def receiptLoop {σ : Type} (process : σ → Str → Except Str (List LineItem) × σ) :
    σ → List DirEntry → List (Str × Output) × σ
  | w, [] => ([], w)
  | w, receiptFile :: rest =>
    if receiptFile.isDir then receiptLoop process w rest
    else
      let r := process w (imagePathOf receiptFile)
      let t := receiptLoop process r.2 rest
      ((imagePathOf receiptFile, outputOf receiptFile r.1) :: t.1, t.2)

/-- How a run of `main` ends: a fatal startup error, or the end of the loop
with the credentials in force and the record of the loop. -/
inductive Run (σ : Type) where
  | fatal (msg : Str)
  | completed (credentials : Credentials) (record : List (Str × Output)) (world : σ)

/-- The function `main` (main.go:147-189): `readFile` is the result of
reading `credentials.txt`, `readDir` the result of listing `receipts`. -/
def main {σ : Type} (readFile : Except Str Str) (readDir : Except Str (List DirEntry))
    (process : σ → Str → Except Str (List LineItem) × σ) (w : σ) : Run σ :=
  match loadCredentials readFile with
  | .error msg => .fatal msg
  | .ok credentials =>
    match readDir with
    | .error err => .fatal ("failed to read receipts folder: ".toList ++ err)
    | .ok receiptFiles =>
      let t := receiptLoop process w receiptFiles
      .completed credentials t.1 t.2

/-! ## Facts about the categorizer -/

theorem stringsHasPrefix_iff (s p : Str) : stringsHasPrefix s p = true ↔ p <+: s := by
  induction s generalizing p with
  | nil => cases p <;> simp [stringsHasPrefix]
  | cons c cs ih =>
    cases p with
    | nil => simp [stringsHasPrefix]
    | cons q qs =>
      simp only [stringsHasPrefix, Bool.and_eq_true, beq_iff_eq, ih, List.cons_prefix_cons]
      constructor <;> rintro ⟨h1, h2⟩ <;> exact ⟨h1.symm, h2⟩

theorem stringsContains_iff (s substr : Str) :
    stringsContains s substr = true ↔ substr <:+: s := by
  induction s with
  | nil =>
    simp only [stringsContains, stringsHasPrefix_iff, List.prefix_nil, List.infix_nil]
  | cons c cs ih =>
    simp only [stringsContains, Bool.or_eq_true, stringsHasPrefix_iff, ih, List.infix_cons_iff]

theorem keywordLoop_eq_none (dl category : Str) (keywords : List Str) :
    keywordLoop dl category keywords = none ↔ ∀ kw ∈ keywords, ¬ kw <:+: dl := by
  induction keywords with
  | nil => simp [keywordLoop]
  | cons kw rest ih =>
    simp only [keywordLoop, List.mem_cons, forall_eq_or_imp]
    by_cases h : stringsContains dl kw = true
    · simp [h, (stringsContains_iff dl kw).1 h]
    · have h' : ¬ kw <:+: dl := fun hk => h ((stringsContains_iff dl kw).2 hk)
      simp [h, h', ih]

theorem keywordLoop_eq_some (dl category c : Str) (keywords : List Str)
    (h : keywordLoop dl category keywords = some c) :
    c = category ∧ ∃ kw ∈ keywords, kw <:+: dl := by
  induction keywords with
  | nil => simp [keywordLoop] at h
  | cons kw rest ih =>
    simp only [keywordLoop] at h
    by_cases hk : stringsContains dl kw = true
    · simp only [hk, if_true, Option.some.injEq] at h
      exact ⟨h.symm, kw, List.mem_cons_self _ _, (stringsContains_iff dl kw).1 hk⟩
    · simp only [hk] at h
      obtain ⟨h1, kw', hm, hc⟩ := ih (by simpa using h)
      exact ⟨h1, kw', List.mem_cons_of_mem _ hm, hc⟩

/-- The outer loop returns the category of the first entry, in the order of
iteration, that has a keyword in the description, and `uncategorized` when
no entry has one. -/
theorem categoryLoop_spec (dl : Str) (order : List (Str × List Str)) :
    (categoryLoop dl order = "uncategorized".toList ∧
      ∀ e ∈ order, ∀ kw ∈ e.2, ¬ kw <:+: dl) ∨
    (∃ pre e post, order = pre ++ e :: post ∧
      (∀ e' ∈ pre, ∀ kw ∈ e'.2, ¬ kw <:+: dl) ∧ (∃ kw ∈ e.2, kw <:+: dl) ∧
      categoryLoop dl order = e.1) := by
  induction order with
  | nil => left; simp [categoryLoop]
  | cons e rest ih =>
    obtain ⟨category, keywords⟩ := e
    cases hk : keywordLoop dl category keywords with
    | some c =>
      right
      obtain ⟨hc, hkw⟩ := keywordLoop_eq_some dl category c keywords hk
      refine ⟨[], (category, keywords), rest, rfl, by simp, hkw, ?_⟩
      simp [categoryLoop, hk, hc]
    | none =>
      have hnone := (keywordLoop_eq_none dl category keywords).1 hk
      have hstep : categoryLoop dl ((category, keywords) :: rest) = categoryLoop dl rest := by
        simp [categoryLoop, hk]
      rcases ih with ⟨h1, h2⟩ | ⟨pre, e, post, h1, h2, h3, h4⟩
      · left
        refine ⟨by rw [hstep, h1], ?_⟩
        intro e he
        rcases List.mem_cons.1 he with rfl | he
        · exact hnone
        · exact h2 e he
      · right
        refine ⟨(category, keywords) :: pre, e, post, by simp [h1], ?_, h3, by rw [hstep, h4]⟩
        intro e' he'
        rcases List.mem_cons.1 he' with rfl | he'
        · exact hnone
        · exact h2 e' he'

/-- A category has one entry in `CATEGORY_MAP`. -/
theorem CATEGORY_MAP_keys_unique (c : Str) (k1 k2 : List Str)
    (h1 : (c, k1) ∈ CATEGORY_MAP) (h2 : (c, k2) ∈ CATEGORY_MAP) : k1 = k2 := by
  simp only [CATEGORY_MAP, List.mem_cons, Prod.mk.injEq, List.mem_singleton,
    List.not_mem_nil, or_false] at h1 h2
  rcases h1 with ⟨rfl, rfl⟩ | ⟨rfl, rfl⟩ | ⟨rfl, rfl⟩ <;>
    rcases h2 with ⟨h, rfl⟩ | ⟨h, rfl⟩ | ⟨h, rfl⟩ <;>
    first | rfl | exact absurd h (by decide)

theorem matchesCategory_iff (dl c : Str) :
    MatchesCategory dl c ↔ c ∈ matchingCategories dl := by
  simp only [MatchesCategory, matchingCategories, List.mem_map, List.mem_filter,
    List.any_eq_true, stringsContains_iff]
  constructor
  · rintro ⟨kws, kw, h1, h2, h3⟩
    exact ⟨(c, kws), ⟨h1, kw, h2, h3⟩, rfl⟩
  · rintro ⟨⟨c', kws⟩, ⟨h1, kw, h2, h3⟩, rfl⟩
    exact ⟨kws, kw, h1, h2, h3⟩

/-- What `categorizeItem` returns under an iteration order: a category that
matches, no earlier entry of the order matching, or `uncategorized` when no
category matches. -/
theorem categorizeItem_spec (tbl : Char → Char) (order : List (Str × List Str))
    (description : Str) (horder : IsIterationOrder order) :
    (categorizeItem tbl order description = "uncategorized".toList ∧
      ∀ c, ¬ MatchesCategory (stringsToLower tbl description) c) ∨
    (∃ pre e post, order = pre ++ e :: post ∧
      (∀ e' ∈ pre, ¬ MatchesCategory (stringsToLower tbl description) e'.1) ∧
      MatchesCategory (stringsToLower tbl description) e.1 ∧
      categorizeItem tbl order description = e.1) := by
  have hmem : ∀ e, e ∈ order ↔ e ∈ CATEGORY_MAP := fun e => List.Perm.mem_iff horder
  rcases categoryLoop_spec (stringsToLower tbl description) order with
    ⟨h1, h2⟩ | ⟨pre, e, post, h1, h2, h3, h4⟩
  · left
    refine ⟨h1, ?_⟩
    rintro c ⟨kws, kw, hc, hkw, hin⟩
    exact h2 (c, kws) ((hmem _).2 hc) kw hkw hin
  · right
    refine ⟨pre, e, post, h1, ?_, ?_, h4⟩
    · rintro e' he' ⟨kws, kw, hc, hkw, hin⟩
      have he'o : e' ∈ CATEGORY_MAP := (hmem _).1 (by rw [h1]; simp [he'])
      have : kws = e'.2 := CATEGORY_MAP_keys_unique e'.1 kws e'.2 hc he'o
      subst this
      exact h2 e' he' kw hkw hin
    · obtain ⟨kw, hkw, hin⟩ := h3
      exact ⟨e.2, kw, (hmem _).1 (by rw [h1]; simp), hkw, hin⟩

/-! ## The claims about the categorizer -/

/-- C1, as stated, fails: the lowercased form of `Walmart Cafe` contains the
keyword `cafe` listed under `dining`, and under the iteration order of the
literal `categorizeItem` returns `groceries`, not `dining`. -/
theorem categorizeItem_keyword_counterexample :
    IsIterationOrder CATEGORY_MAP ∧
    MatchesCategory (stringsToLower id "Walmart Cafe".toList) "dining".toList ∧
    categorizeItem id CATEGORY_MAP "Walmart Cafe".toList = "groceries".toList ∧
    categorizeItem id CATEGORY_MAP "Walmart Cafe".toList ≠ "dining".toList := by
  refine ⟨List.Perm.refl _, ?_, by decide, by decide⟩
  rw [matchesCategory_iff]
  decide

/-- C1, amended: when the lowercased description contains a keyword listed
under a category `c`, `categorizeItem` returns, under every iteration order,
a category of `CATEGORY_MAP` one of whose keywords the lowercased
description contains (so never `uncategorized`); it returns `c` itself
whenever no category iterated before `c` has a keyword in the description. -/
theorem categorizeItem_keyword (tbl : Char → Char) (order : List (Str × List Str))
    (description c : Str) (horder : IsIterationOrder order)
    (hc : MatchesCategory (stringsToLower tbl description) c) :
    MatchesCategory (stringsToLower tbl description) (categorizeItem tbl order description) ∧
    categorizeItem tbl order description ≠ "uncategorized".toList ∧
    ∀ pre kws post, order = pre ++ (c, kws) :: post →
      (∀ e ∈ pre, ¬ MatchesCategory (stringsToLower tbl description) e.1) →
      categorizeItem tbl order description = c := by
  have hunc : ¬ MatchesCategory (stringsToLower tbl description) "uncategorized".toList := by
    rintro ⟨kws, kw, h, -, -⟩
    simp only [CATEGORY_MAP, List.mem_cons, Prod.mk.injEq, List.mem_singleton,
      List.not_mem_nil, or_false] at h
    rcases h with ⟨h, -⟩ | ⟨h, -⟩ | ⟨h, -⟩ <;> exact absurd h (by decide)
  have hnodup : (order.map Prod.fst).Nodup := by
    have : (CATEGORY_MAP.map Prod.fst).Nodup := by decide
    exact (List.Perm.nodup_iff (List.Perm.map _ horder)).2 this
  rcases categorizeItem_spec tbl order description horder with
    ⟨-, h2⟩ | ⟨pre, e, post, h1, h2, h3, h4⟩
  · exact absurd hc (h2 c)
  · refine ⟨by rw [h4]; exact h3, ?_, ?_⟩
    · intro h
      rw [h4] at h
      rw [h] at h3
      exact hunc h3
    · intro pre' kws post' hsplit hpre
      rw [h4]
      -- the first matching entry is the entry of `c`
      rw [h1] at hsplit
      rcases List.append_eq_append_iff.1 hsplit with ⟨a', ha, hb⟩ | ⟨c', ha, hb⟩
      · -- pre' = pre ++ a'
        cases a' with
        | nil =>
          simp only [List.nil_append, List.cons.injEq] at hb
          rw [hb.1]
        | cons x xs =>
          simp only [List.cons_append, List.cons.injEq] at hb
          have : e ∈ pre' := by rw [ha, hb.1]; simp
          exact absurd h3 (hpre e this)
      · -- pre = pre' ++ c'
        cases c' with
        | nil =>
          simp only [List.nil_append, List.cons.injEq] at hb
          rw [← hb.1]
        | cons x xs =>
          simp only [List.cons_append, List.cons.injEq] at hb
          have : (c, kws) ∈ pre := by rw [ha, ← hb.1]; simp
          exact absurd hc (h2 (c, kws) this)

/-- The amended C1 at `Walmart Cafe` and the category `dining`, under an
iteration order that visits `dining` first. -/
theorem categorizeItem_keyword_witness :
    categorizeItem id
      [("dining".toList, ["restaurant".toList, "cafe".toList, "diner".toList]),
       ("groceries".toList, ["walmart".toList, "whole foods".toList, "grocery".toList]),
       ("electronics".toList, ["best buy".toList, "electronics".toList, "tech".toList])]
      "Walmart Cafe".toList = "dining".toList :=
  (categorizeItem_keyword id _ "Walmart Cafe".toList "dining".toList
    (by unfold IsIterationOrder; decide)
    (by rw [matchesCategory_iff]; decide)).2.2 []
    ["restaurant".toList, "cafe".toList, "diner".toList] _ rfl (by simp)

/-- C2: when the lowercased description contains no keyword of
`CATEGORY_MAP`, `categorizeItem` returns `uncategorized`, under every
iteration order. -/
theorem categorizeItem_uncategorized (tbl : Char → Char) (order : List (Str × List Str))
    (description : Str) (horder : IsIterationOrder order)
    (hnone : ∀ category keywords keyword, (category, keywords) ∈ CATEGORY_MAP →
      keyword ∈ keywords → ¬ keyword <:+: stringsToLower tbl description) :
    categorizeItem tbl order description = "uncategorized".toList := by
  rcases categorizeItem_spec tbl order description horder with
    ⟨h1, -⟩ | ⟨pre, e, post, -, -, ⟨kws, kw, h1, h2, h3⟩, -⟩
  · exact h1
  · exact absurd h3 (hnone _ _ _ h1 h2)

/-- C2 at the description `Shell Gas 42`. -/
theorem categorizeItem_uncategorized_witness :
    categorizeItem id CATEGORY_MAP "Shell Gas 42".toList = "uncategorized".toList :=
  categorizeItem_uncategorized id CATEGORY_MAP "Shell Gas 42".toList (List.Perm.refl _)
    (by
      intro category keywords keyword h1 h2 h3
      have hm : category ∈ matchingCategories (stringsToLower id "Shell Gas 42".toList) :=
        (matchesCategory_iff _ _).1 ⟨keywords, keyword, h1, h2, h3⟩
      have e : matchingCategories (stringsToLower id "Shell Gas 42".toList) = [] := by decide
      rw [e] at hm
      exact List.not_mem_nil _ hm)

/-- C10: when the keywords the lowercased description contains belong to
at most one category, `categorizeItem` returns the same result under any two
iteration orders of `CATEGORY_MAP`, and that result is the matching category
when there is one; a result that depends on the order therefore needs
keywords of two different categories. -/
theorem categorizeItem_deterministic (tbl : Char → Char)
    (order1 order2 : List (Str × List Str)) (description : Str)
    (h1 : IsIterationOrder order1) (h2 : IsIterationOrder order2)
    (hone : ∀ c1 c2, MatchesCategory (stringsToLower tbl description) c1 →
      MatchesCategory (stringsToLower tbl description) c2 → c1 = c2) :
    categorizeItem tbl order1 description = categorizeItem tbl order2 description ∧
    ∀ c, MatchesCategory (stringsToLower tbl description) c →
      categorizeItem tbl order1 description = c := by
  rcases categorizeItem_spec tbl order1 description h1 with
    ⟨a1, a2⟩ | ⟨pre, e, post, -, -, a3, a4⟩
  · rcases categorizeItem_spec tbl order2 description h2 with
      ⟨b1, -⟩ | ⟨pre, e, post, -, -, b3, -⟩
    · exact ⟨by rw [a1, b1], fun c hc => absurd hc (a2 c)⟩
    · exact absurd b3 (a2 _)
  · rcases categorizeItem_spec tbl order2 description h2 with
      ⟨-, b2⟩ | ⟨pre', e', post', -, -, b3, b4⟩
    · exact absurd a3 (b2 _)
    · exact ⟨by rw [a4, b4]; exact hone _ _ a3 b3, fun c hc => by rw [a4]; exact hone _ _ a3 hc⟩

/-- C10 at the description `Whole Foods Market`, which matches `groceries`
only, under the order of the literal and under its reverse. -/
theorem categorizeItem_deterministic_witness :
    categorizeItem id CATEGORY_MAP "Whole Foods Market".toList =
      categorizeItem id CATEGORY_MAP.reverse "Whole Foods Market".toList ∧
    categorizeItem id CATEGORY_MAP "Whole Foods Market".toList = "groceries".toList :=
  have h := categorizeItem_deterministic id CATEGORY_MAP CATEGORY_MAP.reverse
    "Whole Foods Market".toList (List.Perm.refl _) (List.reverse_perm _)
    (by
      intro c1 c2 hc1 hc2
      rw [matchesCategory_iff] at hc1 hc2
      have e : matchingCategories (stringsToLower id "Whole Foods Market".toList) =
          ["groceries".toList] := by decide
      rw [e, List.mem_singleton] at hc1 hc2
      rw [hc1, hc2])
  ⟨h.1, h.2 _ (by rw [matchesCategory_iff]; decide)⟩

/-! ## Facts about the pattern -/

/-- A string splits in one way only into a run of characters of a class and
a remainder that does not start with a character of the class. -/
theorem span_unique (p : Char → Bool) (a a' b b' : Str)
    (ha : ∀ c ∈ a, p c = true) (ha' : ∀ c ∈ a', p c = true)
    (hb : ∀ c, b.head? = some c → p c = false)
    (hb' : ∀ c, b'.head? = some c → p c = false)
    (h : a ++ b = a' ++ b') : a = a' ∧ b = b' := by
  induction a generalizing a' with
  | nil =>
    cases a' with
    | nil => exact ⟨rfl, by simpa using h⟩
    | cons x xs =>
      exfalso
      simp only [List.nil_append, List.cons_append] at h
      have h1 := hb x (by rw [h]; rfl)
      have h2 := ha' x (List.mem_cons_self _ _)
      rw [h1] at h2
      exact Bool.noConfusion h2
  | cons x xs ih =>
    cases a' with
    | nil =>
      exfalso
      simp only [List.nil_append, List.cons_append] at h
      have h1 := hb' x (by rw [← h]; rfl)
      have h2 := ha x (List.mem_cons_self _ _)
      rw [h1] at h2
      exact Bool.noConfusion h2
    | cons y ys =>
      simp only [List.cons_append, List.cons.injEq] at h
      obtain ⟨e1, e2⟩ := ih ys (fun c hc => ha c (List.mem_cons_of_mem _ hc))
        (fun c hc => ha' c (List.mem_cons_of_mem _ hc)) h.2
      exact ⟨by rw [h.1, e1], e2⟩

theorem mem_lazyRests (p : Char → Bool) (s r : Str) :
    r ∈ lazyRests p s ↔ ∃ d, d ≠ [] ∧ (∀ c ∈ d, p c = true) ∧ s = d ++ r := by
  induction s with
  | nil =>
    simp only [lazyRests, List.not_mem_nil, false_iff]
    rintro ⟨d, hd, -, h⟩
    cases d with
    | nil => exact hd rfl
    | cons x xs => simp at h
  | cons c cs ih =>
    simp only [lazyRests]
    by_cases hp : p c = true
    · simp only [hp, if_true, List.mem_cons, ih]
      constructor
      · rintro (rfl | ⟨d, hd, hall, rfl⟩)
        · exact ⟨[c], by simp, by simpa using hp, rfl⟩
        · exact ⟨c :: d, by simp, by
            intro x hx
            rcases List.mem_cons.1 hx with rfl | hx
            · exact hp
            · exact hall x hx, rfl⟩
      · rintro ⟨d, hd, hall, h⟩
        cases d with
        | nil => exact absurd rfl hd
        | cons x xs =>
          simp only [List.cons_append, List.cons.injEq] at h
          cases xs with
          | nil => left; simpa using h.2.symm
          | cons y ys =>
            right
            exact ⟨y :: ys, by simp, fun z hz => hall z (List.mem_cons_of_mem _ hz), h.2⟩
    · rw [if_neg hp]
      simp only [List.not_mem_nil, false_iff]
      rintro ⟨d, hd, hall, h⟩
      cases d with
      | nil => exact hd rfl
      | cons x xs =>
        simp only [List.cons_append, List.cons.injEq] at h
        exact hp (h.1 ▸ hall x (List.mem_cons_self _ _))

theorem mem_greedyRests (p : Char → Bool) (s r : Str) :
    r ∈ greedyRests p s ↔ ∃ d, d ≠ [] ∧ (∀ c ∈ d, p c = true) ∧ s = d ++ r := by
  induction s with
  | nil =>
    simp only [greedyRests, List.not_mem_nil, false_iff]
    rintro ⟨d, hd, -, h⟩
    cases d with
    | nil => exact hd rfl
    | cons x xs => simp at h
  | cons c cs ih =>
    simp only [greedyRests]
    by_cases hp : p c = true
    · simp only [hp, if_true, List.mem_append, List.mem_singleton, ih]
      constructor
      · rintro (⟨d, hd, hall, rfl⟩ | rfl)
        · exact ⟨c :: d, by simp, by
            intro x hx
            rcases List.mem_cons.1 hx with rfl | hx
            · exact hp
            · exact hall x hx, rfl⟩
        · exact ⟨[c], by simp, by simpa using hp, rfl⟩
      · rintro ⟨d, hd, hall, h⟩
        cases d with
        | nil => exact absurd rfl hd
        | cons x xs =>
          simp only [List.cons_append, List.cons.injEq] at h
          cases xs with
          | nil => right; simpa using h.2.symm
          | cons y ys =>
            left
            exact ⟨y :: ys, by simp, fun z hz => hall z (List.mem_cons_of_mem _ hz), h.2⟩
    · rw [if_neg hp]
      simp only [List.not_mem_nil, false_iff]
      rintro ⟨d, hd, hall, h⟩
      cases d with
      | nil => exact hd rfl
      | cons x xs =>
        simp only [List.cons_append, List.cons.injEq] at h
        exact hp (h.1 ▸ hall x (List.mem_cons_self _ _))

theorem mem_run_cls (p : Char → Bool) (s : Str) (m : List Str × Str) :
    m ∈ (Regex.cls p).run s ↔ m.1 = [] ∧ ∃ c, p c = true ∧ s = c :: m.2 := by
  obtain ⟨caps, r⟩ := m
  cases s with
  | nil => simp [Regex.run]
  | cons c cs =>
    simp only [Regex.run]
    by_cases hp : p c = true
    · simp only [hp, if_true, List.mem_singleton, Prod.mk.injEq, List.cons.injEq]
      constructor
      · rintro ⟨rfl, rfl⟩; exact ⟨rfl, c, hp, rfl, rfl⟩
      · rintro ⟨rfl, c', -, rfl, rfl⟩; exact ⟨rfl, rfl⟩
    · rw [if_neg hp]
      simp only [List.not_mem_nil, false_iff]
      rintro ⟨-, c', hc', h⟩
      simp only [List.cons.injEq] at h
      exact hp (h.1 ▸ hc')

theorem mem_run_plus (p : Char → Bool) (g : Bool) (s : Str) (m : List Str × Str) :
    m ∈ (Regex.plus p g).run s ↔
      m.1 = [] ∧ ∃ d, d ≠ [] ∧ (∀ c ∈ d, p c = true) ∧ s = d ++ m.2 := by
  obtain ⟨caps, r⟩ := m
  cases g with
  | true =>
    simp only [Regex.run, List.mem_map, Prod.mk.injEq, mem_greedyRests]
    constructor
    · rintro ⟨r', h, rfl, rfl⟩; exact ⟨rfl, h⟩
    · rintro ⟨rfl, h⟩; exact ⟨r, h, rfl, rfl⟩
  | false =>
    simp only [Regex.run, List.mem_map, Prod.mk.injEq, mem_lazyRests]
    constructor
    · rintro ⟨r', h, rfl, rfl⟩; exact ⟨rfl, h⟩
    · rintro ⟨rfl, h⟩; exact ⟨r, h, rfl, rfl⟩

theorem mem_run_seq (a b : Regex) (s : Str) (m : List Str × Str) :
    m ∈ (Regex.seq a b).run s ↔
      ∃ ma ∈ a.run s, ∃ mb ∈ b.run ma.2, m = (ma.1 ++ mb.1, mb.2) := by
  simp only [Regex.run, List.mem_flatMap, List.mem_map]
  constructor
  · rintro ⟨ma, h1, mb, h2, rfl⟩; exact ⟨ma, h1, mb, h2, rfl⟩
  · rintro ⟨ma, h1, mb, h2, rfl⟩; exact ⟨ma, h1, mb, h2, rfl⟩

theorem mem_run_group (a : Regex) (s : Str) (m : List Str × Str) :
    m ∈ (Regex.group a).run s ↔
      ∃ ma ∈ a.run s, m = (s.take (s.length - ma.2.length) :: ma.1, ma.2) := by
  simp only [Regex.run, List.mem_map]
  constructor
  · rintro ⟨ma, h1, rfl⟩; exact ⟨ma, h1, rfl⟩
  · rintro ⟨ma, h1, rfl⟩; exact ⟨ma, h1, rfl⟩

theorem take_append_sub (a r : Str) : (a ++ r).take ((a ++ r).length - r.length) = a := by
  simp

/-- The matches of the second group at the head of `s`: an amount, captured,
and what follows it. -/
theorem mem_run_amountRegex (s : Str) (m : List Str × Str) :
    m ∈ amountRegex.run s ↔ ∃ amt, IsAmount amt ∧ s = amt ++ m.2 ∧ m.1 = [amt] := by
  obtain ⟨caps, r⟩ := m
  simp only [amountRegex, mem_run_group, mem_run_seq, mem_run_plus, mem_run_cls]
  constructor
  · rintro ⟨_, ⟨⟨c1, t1⟩, ⟨h1, ds, hds, hall, rfl⟩, _, ⟨⟨c2, t2⟩, ⟨h2, x, hx, e2⟩,
      _, ⟨⟨c3, t3⟩, ⟨h3, d1, hd1, e3⟩, ⟨c4, t4⟩, ⟨h4, d2, hd2, e4⟩, rfl⟩, rfl⟩, rfl⟩, hm⟩
    simp only at h1 h2 h3 h4 e2 e3 e4 hx
    subst h1 h2 h3 h4 e2 e3 e4
    simp only [beq_iff_eq] at hx
    subst hx
    simp only [Prod.mk.injEq] at hm
    obtain ⟨rfl, rfl⟩ := hm
    refine ⟨ds ++ ['.', d1, d2], ⟨ds, d1, d2, rfl, hds, hall, hd1, hd2⟩, by simp, ?_⟩
    have e : ds ++ '.' :: d1 :: d2 :: r = (ds ++ ['.', d1, d2]) ++ r := by simp
    rw [e, take_append_sub]
    rfl
  · rintro ⟨amt, ⟨ds, d1, d2, rfl, hds, hall, hd1, hd2⟩, rfl, rfl⟩
    refine ⟨([], r), ⟨([], '.' :: d1 :: d2 :: r), ⟨rfl, ds, hds, hall, by simp⟩,
      ([], r), ⟨([], d1 :: d2 :: r), ⟨rfl, '.', by simp, rfl⟩,
      ([], r), ⟨([], d2 :: r), ⟨rfl, d1, hd1, rfl⟩, ([], r), ⟨rfl, d2, hd2, rfl⟩, rfl⟩, rfl⟩,
      rfl⟩, ?_⟩
    simp only [Prod.mk.injEq, and_true]
    rw [take_append_sub]

theorem isPerlSpace_of_digit (c : Char) (h : isPerlDigit c = true) : isPerlSpace c = false := by
  cases hs : isPerlSpace c with
  | false => rfl
  | true =>
    exfalso
    simp only [isPerlSpace, Bool.or_eq_true, beq_iff_eq] at hs
    rcases hs with (((rfl | rfl) | rfl) | rfl) | rfl <;> exact absurd h (by decide)

theorem isPerlSpace_point : isPerlSpace '.' = false := by decide

theorem isPerlDigit_point : isPerlDigit '.' = false := by decide

theorem IsAmount.head_digit {a : Str} (h : IsAmount a) (r : Str) :
    ∃ c t, a ++ r = c :: t ∧ isPerlDigit c = true := by
  obtain ⟨ds, d1, d2, rfl, hds, hall, -, -⟩ := h
  cases ds with
  | nil => exact absurd rfl hds
  | cons x xs => exact ⟨x, _, rfl, hall x (List.mem_cons_self _ _)⟩

theorem IsAmount.no_space {a : Str} (h : IsAmount a) : ∀ c ∈ a, isPerlSpace c = false := by
  obtain ⟨ds, d1, d2, rfl, -, hall, h1, h2⟩ := h
  intro c hc
  simp only [List.mem_append, List.mem_cons, List.mem_singleton, List.not_mem_nil,
    or_false] at hc
  rcases hc with hc | rfl | rfl | rfl
  · exact isPerlSpace_of_digit c (hall c hc)
  · exact isPerlSpace_point
  · exact isPerlSpace_of_digit _ h1
  · exact isPerlSpace_of_digit _ h2

theorem IsAmount.ne_nil {a : Str} (h : IsAmount a) : a ≠ [] := by
  obtain ⟨ds, d1, d2, rfl, -, -, -, -⟩ := h
  simp

/-- An amount at the head of a string is determined by the string. -/
theorem IsAmount.append_unique {a a' r r' : Str} (h : IsAmount a) (h' : IsAmount a')
    (e : a ++ r = a' ++ r') : a = a' ∧ r = r' := by
  obtain ⟨ds, d1, d2, rfl, -, hall, -, -⟩ := h
  obtain ⟨ds', d1', d2', rfl, -, hall', -, -⟩ := h'
  simp only [List.append_assoc, List.cons_append, List.nil_append] at e
  obtain ⟨e1, e2⟩ := span_unique isPerlDigit ds ds' _ _ hall hall'
    (by intro c hc; simp only [List.head?_cons, Option.some.injEq] at hc
        rw [← hc]; exact isPerlDigit_point)
    (by intro c hc; simp only [List.head?_cons, Option.some.injEq] at hc
        rw [← hc]; exact isPerlDigit_point) e
  simp only [List.cons.injEq, true_and] at e2
  obtain ⟨rfl, rfl, rfl⟩ := e2
  exact ⟨by rw [e1], rfl⟩

/-- White space and an amount at the head of a string are determined by the
string. -/
theorem ws_amount_unique {ws ws' a a' r r' : Str}
    (hws : ∀ c ∈ ws, isPerlSpace c = true) (hws' : ∀ c ∈ ws', isPerlSpace c = true)
    (h : IsAmount a) (h' : IsAmount a') (e : ws ++ a ++ r = ws' ++ a' ++ r') :
    ws = ws' ∧ a = a' ∧ r = r' := by
  simp only [List.append_assoc] at e
  obtain ⟨e1, e2⟩ := span_unique isPerlSpace ws ws' _ _ hws hws'
    (by
      intro c hc
      obtain ⟨x, t, hx, hd⟩ := h.head_digit r
      rw [hx] at hc
      simp only [List.head?_cons, Option.some.injEq] at hc
      rw [← hc]; exact isPerlSpace_of_digit x hd)
    (by
      intro c hc
      obtain ⟨x, t, hx, hd⟩ := h'.head_digit r'
      rw [hx] at hc
      simp only [List.head?_cons, Option.some.injEq] at hc
      rw [← hc]; exact isPerlSpace_of_digit x hd) e
  obtain ⟨e3, e4⟩ := h.append_unique h' e2
  exact ⟨e1, e3, e4⟩

/-- The matches of `\s+(\d+\.\d{2})` at the head of `t`. -/
theorem mem_run_tailRegex (t : Str) (m : List Str × Str) :
    m ∈ tailRegex.run t ↔
      ∃ ws amt, ws ≠ [] ∧ (∀ c ∈ ws, isPerlSpace c = true) ∧ IsAmount amt ∧
        t = ws ++ amt ++ m.2 ∧ m.1 = [amt] := by
  obtain ⟨caps, r⟩ := m
  simp only [tailRegex, mem_run_seq, mem_run_plus, mem_run_amountRegex]
  constructor
  · rintro ⟨⟨c1, t1⟩, ⟨h1, ws, hws, hall, rfl⟩, ⟨c2, t2⟩, ⟨amt, hamt, e, hc⟩, hm⟩
    simp only at h1 e hc
    subst h1 e hc
    simp only [Prod.mk.injEq] at hm
    obtain ⟨rfl, rfl⟩ := hm
    exact ⟨ws, amt, hws, hall, hamt, by simp, rfl⟩
  · rintro ⟨ws, amt, hws, hall, hamt, rfl, rfl⟩
    exact ⟨([], amt ++ r), ⟨rfl, ws, hws, hall, by simp⟩, ([amt], r), ⟨amt, hamt, rfl, rfl⟩, rfl⟩

/-- At a given position `\s+(\d+\.\d{2})` matches in one way at most. -/
theorem run_tailRegex_unique (t : Str) (m m' : List Str × Str)
    (h : m ∈ tailRegex.run t) (h' : m' ∈ tailRegex.run t) : m = m' := by
  obtain ⟨ws, amt, -, hall, hamt, e, hc⟩ := (mem_run_tailRegex t m).1 h
  obtain ⟨ws', amt', -, hall', hamt', e', hc'⟩ := (mem_run_tailRegex t m').1 h'
  obtain ⟨-, e2, e3⟩ := ws_amount_unique hall hall' hamt hamt' (e.symm.trans e')
  obtain ⟨c, r⟩ := m
  obtain ⟨c', r'⟩ := m'
  simp only at hc hc' e3
  rw [hc, hc', e2, e3]

theorem head?_eq_some_of_unique {α : Type} (l : List α) (x : α)
    (huniq : ∀ a ∈ l, ∀ b ∈ l, a = b) : l.head? = some x ↔ x ∈ l := by
  cases l with
  | nil => simp
  | cons y ys =>
    simp only [List.head?_cons, Option.some.injEq, List.mem_cons]
    constructor
    · intro h; exact Or.inl h.symm
    · rintro (h | h)
      · exact h.symm
      · exact huniq y (List.mem_cons_self _ _) x (List.mem_cons_of_mem _ h)

theorem run_tailRegex_ne_nil_iff (t : Str) : tailRegex.run t ≠ [] ↔ StartsAmount t := by
  constructor
  · intro h
    obtain ⟨m, hm⟩ := List.exists_mem_of_ne_nil _ h
    obtain ⟨ws, amt, h1, h2, h3, h4, -⟩ := (mem_run_tailRegex t m).1 hm
    exact ⟨ws, amt, m.2, h1, h2, h3, h4⟩
  · rintro ⟨ws, amt, r, h1, h2, h3, h4⟩
    have : ([amt], r) ∈ tailRegex.run t := (mem_run_tailRegex t _).2 ⟨ws, amt, h1, h2, h3, h4, rfl⟩
    exact List.ne_nil_of_mem this

theorem run_tailRegex_eq_nil_iff (t : Str) : tailRegex.run t = [] ↔ ¬ StartsAmount t := by
  rw [← run_tailRegex_ne_nil_iff]; simp

theorem head?_flatMap_eq_none {α β : Type} (l : List α) (f : α → List β) :
    (l.flatMap f).head? = none ↔ ∀ z ∈ l, f z = [] := by
  simp [List.head?_eq_none_iff, List.flatMap_eq_nil_iff]

theorem head?_flatMap_eq_some {α β : Type} (l : List α) (f : α → List β) (y : β) :
    (l.flatMap f).head? = some y ↔
      ∃ pre x post, l = pre ++ x :: post ∧ (∀ z ∈ pre, f z = []) ∧ (f x).head? = some y := by
  induction l with
  | nil => simp
  | cons a as ih =>
    simp only [List.flatMap_cons, List.head?_append]
    cases hfa : (f a).head? with
    | some v =>
      simp only [Option.or_some]
      constructor
      · intro h
        exact ⟨[], a, as, rfl, by simp, by rw [hfa, h]⟩
      · rintro ⟨pre, x, post, h1, h2, h3⟩
        cases pre with
        | nil =>
          simp only [List.nil_append, List.cons.injEq] at h1
          rw [← h1.1, hfa] at h3
          exact h3
        | cons p ps =>
          simp only [List.cons_append, List.cons.injEq] at h1
          have := h2 p (List.mem_cons_self _ _)
          rw [← h1.1] at this
          rw [this] at hfa
          simp at hfa
    | none =>
      have hnil : f a = [] := List.head?_eq_none_iff.1 hfa
      simp only [Option.none_or, ih]
      constructor
      · rintro ⟨pre, x, post, h1, h2, h3⟩
        refine ⟨a :: pre, x, post, by rw [h1]; rfl, ?_, h3⟩
        intro z hz
        rcases List.mem_cons.1 hz with rfl | hz
        · exact hnil
        · exact h2 z hz
      · rintro ⟨pre, x, post, h1, h2, h3⟩
        cases pre with
        | nil =>
          simp only [List.nil_append, List.cons.injEq] at h1
          rw [← h1.1, hfa] at h3
          simp at h3
        | cons p ps =>
          simp only [List.cons_append, List.cons.injEq] at h1
          exact ⟨ps, x, post, h1.2, fun z hz => h2 z (List.mem_cons_of_mem _ hz), h3⟩

/-- The remainders before `x` in the lazy order are those of the shorter
runs. -/
theorem lazyRests_split (p : Char → Bool) (s : Str) (pre : List Str) (x : Str)
    (post : List Str) (h : lazyRests p s = pre ++ x :: post) :
    ∃ d, d ≠ [] ∧ (∀ c ∈ d, p c = true) ∧ s = d ++ x ∧
      ∀ d1 d2, d = d1 ++ d2 → d1 ≠ [] → d2 ≠ [] → d2 ++ x ∈ pre := by
  induction s generalizing pre with
  | nil => simp [lazyRests] at h
  | cons c cs ih =>
    simp only [lazyRests] at h
    by_cases hp : p c = true
    · rw [if_pos hp] at h
      cases pre with
      | nil =>
        simp only [List.nil_append, List.cons.injEq] at h
        refine ⟨[c], by simp, by simpa using hp, by simp [h.1], ?_⟩
        intro d1 d2 e h1 h2
        exfalso
        cases d1 with
        | nil => exact h1 rfl
        | cons a as =>
          cases d2 with
          | nil => exact h2 rfl
          | cons b bs =>
            have := congrArg List.length e
            simp at this
      | cons y ys =>
        simp only [List.cons_append, List.cons.injEq] at h
        obtain ⟨d, hd, hall, hs, hpre⟩ := ih ys h.2
        refine ⟨c :: d, by simp, ?_, by rw [hs]; rfl, ?_⟩
        · intro z hz
          rcases List.mem_cons.1 hz with rfl | hz
          · exact hp
          · exact hall z hz
        · intro d1 d2 e h1 h2
          cases d1 with
          | nil => exact absurd rfl h1
          | cons a as =>
            simp only [List.cons_append, List.cons.injEq] at e
            cases as with
            | nil =>
              simp only [List.nil_append] at e
              rw [← e.2, ← hs, h.1]
              exact List.mem_cons_self _ _
            | cons b bs =>
              exact List.mem_cons_of_mem _ (hpre (b :: bs) d2 e.2 (by simp) h2)
    · rw [if_neg hp] at h
      simp at h

theorem lazyRests_of_split (p : Char → Bool) (d x : Str) (hd : d ≠ [])
    (hall : ∀ c ∈ d, p c = true) :
    ∃ pre post, lazyRests p (d ++ x) = pre ++ x :: post ∧
      ∀ z ∈ pre, ∃ d1 d2, d = d1 ++ d2 ∧ d1 ≠ [] ∧ d2 ≠ [] ∧ z = d2 ++ x := by
  induction d with
  | nil => exact absurd rfl hd
  | cons c cs ih =>
    have hp : p c = true := hall c (List.mem_cons_self _ _)
    cases cs with
    | nil =>
      refine ⟨[], lazyRests p x, ?_, by simp⟩
      simp [lazyRests, hp]
    | cons y ys =>
      obtain ⟨pre, post, h1, h2⟩ := ih (by simp) (fun z hz => hall z (List.mem_cons_of_mem _ hz))
      refine ⟨((y :: ys) ++ x) :: pre, post, ?_, ?_⟩
      · have e : (c :: y :: ys) ++ x = c :: ((y :: ys) ++ x) := rfl
        rw [e, lazyRests, if_pos hp, h1]
        rfl
      · intro z hz
        rcases List.mem_cons.1 hz with rfl | hz
        · exact ⟨[c], y :: ys, rfl, by simp, by simp, rfl⟩
        · obtain ⟨d1, d2, e1, e2, e3, e4⟩ := h2 z hz
          exact ⟨c :: d1, d2, by rw [e1]; rfl, by simp, e3, e4⟩

theorem isDot_iff (c : Char) : isDot c = true ↔ c ≠ '\n' := by
  simp [isDot]

/-- The matches of the pattern at the head of `s`, in the order of the
search: the descriptions from the shortest on, each with the one match of
the rest of the pattern after it. -/
theorem matchHere_pattern (s : Str) :
    pattern.matchHere s = ((lazyRests isDot s).flatMap (fun t =>
      (tailRegex.run t).map (fun m =>
        (s.take (s.length - m.2.length) :: s.take (s.length - t.length) :: m.1, m.2)))).head? := by
  simp only [Regex.matchHere, pattern, Regex.run, List.map_map, List.map_flatMap,
    List.flatMap_map]
  rfl

/-- The match the search prefers at the head of `s`: the shortest
description after which white space and an amount stand. -/
theorem matchHere_eq_some (s : Str) (caps : List Str) (rest : Str) :
    pattern.matchHere s = some (caps, rest) ↔
      ∃ desc ws amt, IsOccurrence desc ws amt ∧ s = desc ++ ws ++ amt ++ rest ∧
        caps = [desc ++ ws ++ amt, desc, amt] ∧
        ∀ d1 d2, desc = d1 ++ d2 → d1 ≠ [] → d2 ≠ [] →
          ¬ StartsAmount (d2 ++ ws ++ amt ++ rest) := by
  rw [matchHere_pattern, head?_flatMap_eq_some]
  constructor
  · rintro ⟨pre, t, post, h1, h2, h3⟩
    obtain ⟨desc, hd, hall, hs, hmin⟩ := lazyRests_split isDot s pre t post h1
    rw [List.head?_map] at h3
    cases hm : (tailRegex.run t).head? with
    | none => rw [hm] at h3; simp at h3
    | some m =>
      rw [hm] at h3
      simp only [Option.map_some', Option.some.injEq, Prod.mk.injEq] at h3
      obtain ⟨ws, amt, hws, hwsall, hamt, ht, hc⟩ :=
        (mem_run_tailRegex t m).1 (List.mem_of_mem_head? hm)
      obtain ⟨h3a, h3b⟩ := h3
      subst h3b
      refine ⟨desc, ws, amt, ⟨hd, fun c hc => (isDot_iff c).1 (hall c hc), hws, hwsall, hamt⟩,
        by rw [hs, ht]; simp, ?_, ?_⟩
      · rw [← h3a, hc, hs, ht]
        have e1 : desc ++ (ws ++ amt ++ m.2) = (desc ++ ws ++ amt) ++ m.2 := by simp
        rw [take_append_sub desc, e1, take_append_sub]
      · intro d1 d2 e hd1 hd2 hsa
        have hz := h2 (d2 ++ t) (hmin d1 d2 e hd1 hd2)
        have : tailRegex.run (d2 ++ t) = [] := by simpa using hz
        rw [run_tailRegex_eq_nil_iff, ht] at this
        apply this
        simpa using hsa
  · rintro ⟨desc, ws, amt, ⟨hd, hall, hws, hwsall, hamt⟩, hs, hc, hmin⟩
    obtain ⟨pre, post, h1, h2⟩ := lazyRests_of_split isDot desc (ws ++ amt ++ rest) hd
      (fun c hc => (isDot_iff c).2 (hall c hc))
    refine ⟨pre, ws ++ amt ++ rest, post, by rw [hs, ← h1]; simp, ?_, ?_⟩
    · intro z hz
      obtain ⟨d1, d2, e1, e2, e3, e4⟩ := h2 z hz
      have : tailRegex.run z = [] := by
        rw [run_tailRegex_eq_nil_iff, e4]
        intro hsa
        exact hmin d1 d2 e1 e2 e3 (by simpa using hsa)
      rw [this]; rfl
    · have hmem : ([amt], rest) ∈ tailRegex.run (ws ++ amt ++ rest) :=
        (mem_run_tailRegex _ _).2 ⟨ws, amt, hws, hwsall, hamt, rfl, rfl⟩
      have hh : (tailRegex.run (ws ++ amt ++ rest)).head? = some ([amt], rest) :=
        (head?_eq_some_of_unique _ _ (fun a ha b hb => run_tailRegex_unique _ a b ha hb)).2 hmem
      rw [List.head?_map, hh]
      simp only [Option.map_some', Option.some.injEq, Prod.mk.injEq, and_true]
      rw [hc, hs]
      have e1 : desc ++ ws ++ amt ++ rest = desc ++ (ws ++ amt ++ rest) := by simp
      have e2 : desc ++ (ws ++ amt ++ rest) = (desc ++ ws ++ amt) ++ rest := by simp
      rw [e1, take_append_sub desc, e2, take_append_sub]

/-- No match of the pattern is found at the head of `s` exactly when none
starts there. -/
theorem matchHere_eq_none (s : Str) : pattern.matchHere s = none ↔ ¬ StartsMatch s := by
  rw [matchHere_pattern, head?_flatMap_eq_none]
  constructor
  · rintro h ⟨desc, ws, amt, rest, ⟨hd, hall, hws, hwsall, hamt⟩, hs⟩
    have hz : ws ++ amt ++ rest ∈ lazyRests isDot s :=
      (mem_lazyRests _ _ _).2 ⟨desc, hd, fun c hc => (isDot_iff c).2 (hall c hc), by rw [hs]; simp⟩
    have := h _ hz
    have hnil : tailRegex.run (ws ++ amt ++ rest) = [] := by simpa using this
    rw [run_tailRegex_eq_nil_iff] at hnil
    exact hnil ⟨ws, amt, rest, hws, hwsall, hamt, rfl⟩
  · intro h z hz
    obtain ⟨d, hd, hall, hs⟩ := (mem_lazyRests _ _ _).1 hz
    have : tailRegex.run z = [] := by
      rw [run_tailRegex_eq_nil_iff]
      rintro ⟨ws, amt, rest, hws, hwsall, hamt, e⟩
      exact h ⟨d, ws, amt, rest, ⟨hd, fun c hc => (isDot_iff c).1 (hall c hc), hws, hwsall, hamt⟩,
        by rw [hs, e]; simp⟩
    rw [this]; rfl

theorem findFirst_eq_none (re : Regex) (s : Str) :
    re.findFirst s = none ↔ ∀ pre t, s = pre ++ t → re.matchHere t = none := by
  induction s with
  | nil =>
    simp only [Regex.findFirst]
    constructor
    · intro h pre t e
      have : t = [] := by
        cases pre with
        | nil => simpa using e.symm
        | cons x xs => simp at e
      rw [this]; exact h
    · intro h; exact h [] [] rfl
  | cons c cs ih =>
    simp only [Regex.findFirst]
    cases hm : re.matchHere (c :: cs) with
    | some m =>
      simp only [false_iff, reduceCtorEq]
      intro h
      have := h [] (c :: cs) rfl
      rw [hm] at this
      exact Option.noConfusion this
    | none =>
      simp only [ih]
      constructor
      · intro h pre t e
        cases pre with
        | nil =>
          simp only [List.nil_append] at e
          rw [← e]; exact hm
        | cons x xs =>
          simp only [List.cons_append, List.cons.injEq] at e
          exact h xs t e.2
      · intro h pre t e
        exact h (c :: pre) t (by rw [e]; rfl)

/-- The leftmost match: the match preferred at the first position at which
one is found. -/
theorem findFirst_eq_some (re : Regex) (s : Str) (m : List Str × Str) :
    re.findFirst s = some m ↔
      ∃ pre t, s = pre ++ t ∧ re.matchHere t = some m ∧
        ∀ p1 p2, pre = p1 ++ p2 → p2 ≠ [] → re.matchHere (p2 ++ t) = none := by
  induction s with
  | nil =>
    simp only [Regex.findFirst]
    constructor
    · intro h
      refine ⟨[], [], rfl, h, ?_⟩
      intro p1 p2 e hp2
      exfalso
      cases p1 <;> cases p2 <;> simp at e hp2
    · rintro ⟨pre, t, e, h, -⟩
      have : t = [] := by
        cases pre with
        | nil => simpa using e.symm
        | cons x xs => simp at e
      rw [← this]; exact h
  | cons c cs ih =>
    simp only [Regex.findFirst]
    cases hm : re.matchHere (c :: cs) with
    | some m' =>
      simp only [Option.some.injEq]
      constructor
      · rintro rfl
        refine ⟨[], c :: cs, rfl, hm, ?_⟩
        intro p1 p2 e hp2
        exfalso
        cases p1 <;> cases p2 <;> simp at e hp2
      · rintro ⟨pre, t, e, h, hmin⟩
        cases pre with
        | nil =>
          simp only [List.nil_append] at e
          rw [← e, hm] at h
          exact Option.some.inj h
        | cons x xs =>
          have := hmin [] (x :: xs) rfl (by simp)
          rw [← e, hm] at this
          exact Option.noConfusion this
    | none =>
      simp only [ih]
      constructor
      · rintro ⟨pre, t, e, h, hmin⟩
        refine ⟨c :: pre, t, by rw [e]; rfl, h, ?_⟩
        intro p1 p2 e2 hp2
        cases p1 with
        | nil =>
          simp only [List.nil_append] at e2
          rw [← e2]
          have : c :: pre ++ t = c :: cs := by rw [e]; rfl
          rw [this]; exact hm
        | cons y ys =>
          simp only [List.cons_append, List.cons.injEq] at e2
          exact hmin ys p2 e2.2 hp2
      · rintro ⟨pre, t, e, h, hmin⟩
        cases pre with
        | nil =>
          simp only [List.nil_append] at e
          rw [← e, hm] at h
          exact Option.noConfusion h
        | cons x xs =>
          simp only [List.cons_append, List.cons.injEq] at e
          exact ⟨xs, t, e.2, h, fun p1 p2 e2 hp2 => hmin (x :: p1) p2 (by rw [e2]; rfl) hp2⟩

/-- Every match of an expression of the fragment consumes a character. -/
theorem run_rest_lt (re : Regex) : ∀ (s : Str) (m : List Str × Str),
    m ∈ re.run s → m.2.length < s.length := by
  induction re with
  | cls p =>
    intro s m h
    obtain ⟨-, c, -, e⟩ := (mem_run_cls p s m).1 h
    rw [e]; simp
  | plus p g =>
    intro s m h
    obtain ⟨-, d, hd, -, e⟩ := (mem_run_plus p g s m).1 h
    rw [e, List.length_append]
    have : 0 < d.length := List.length_pos.2 hd
    omega
  | seq a b iha ihb =>
    intro s m h
    obtain ⟨ma, h1, mb, h2, rfl⟩ := (mem_run_seq a b s m).1 h
    have := iha s ma h1
    have := ihb ma.2 mb h2
    simp only
    omega
  | group a ih =>
    intro s m h
    obtain ⟨ma, h1, rfl⟩ := (mem_run_group a s m).1 h
    exact ih s ma h1

theorem matchHere_rest_lt (re : Regex) (s : Str) (m : List Str × Str)
    (h : re.matchHere s = some m) : m.2.length < s.length :=
  run_rest_lt (Regex.group re) s m (List.mem_of_mem_head? h)

theorem findFirst_rest_lt (re : Regex) (s : Str) (m : List Str × Str)
    (h : re.findFirst s = some m) : m.2.length < s.length := by
  obtain ⟨pre, t, e, hm, -⟩ := (findFirst_eq_some re s m).1 h
  have := matchHere_rest_lt re t m hm
  rw [e, List.length_append]
  omega

/-- The loop of `FindAllStringSubmatch` does not depend on the fuel, once
the fuel exceeds the length of the text. -/
theorem findAllLoop_fuel (re : Regex) : ∀ (n k : Nat) (s : Str),
    s.length < n → s.length < k → re.findAllLoop n s = re.findAllLoop k s := by
  intro n
  induction n with
  | zero => intro k s h; omega
  | succ n ih =>
    intro k s hn hk
    cases k with
    | zero => omega
    | succ k =>
      simp only [Regex.findAllLoop]
      cases hm : re.findFirst s with
      | none => rfl
      | some m =>
        have := findFirst_rest_lt re s m hm
        simp only
        rw [ih k m.2 (by omega) (by omega)]

theorem findAll_of_findFirst_none (re : Regex) (s : Str) (h : re.findFirst s = none) :
    re.findAllStringSubmatch s = [] := by
  simp [Regex.findAllStringSubmatch, Regex.findAllLoop, h]

/-- The matches of a text: the leftmost match, then the matches of the text
after it. -/
theorem findAll_of_findFirst_some (re : Regex) (s : Str) (m : List Str × Str)
    (h : re.findFirst s = some m) :
    re.findAllStringSubmatch s = m.1 :: re.findAllStringSubmatch m.2 := by
  have hlt := findFirst_rest_lt re s m h
  unfold Regex.findAllStringSubmatch
  rw [Regex.findAllLoop, h]
  simp only
  rw [findAllLoop_fuel re s.length (m.2.length + 1) m.2 hlt (by omega)]

theorem lineItemsLoop_shift (tbl : Char → Char) (orders : Nat → List (Str × List Str))
    (i : Nat) (l : List (List Str)) :
    lineItemsLoop tbl orders (i + 1) l = lineItemsLoop tbl (fun j => orders (j + 1)) i l := by
  induction l generalizing i with
  | nil => rfl
  | cons m rest ih =>
    simp only [lineItemsLoop]
    rw [ih (i + 1)]

/-- A text yields no line item exactly when no match of the pattern starts
anywhere in it. -/
theorem extractLineItems_eq_nil (tbl : Char → Char) (orders : Nat → List (Str × List Str))
    (text : Str) :
    extractLineItems tbl orders text = [] ↔ ∀ pre t, text = pre ++ t → ¬ StartsMatch t := by
  have hnone : pattern.findFirst text = none ↔ ∀ pre t, text = pre ++ t → ¬ StartsMatch t := by
    rw [findFirst_eq_none]
    constructor
    · intro h pre t e; exact (matchHere_eq_none t).1 (h pre t e)
    · intro h pre t e; exact (matchHere_eq_none t).2 (h pre t e)
  rw [← hnone]
  cases hm : pattern.findFirst text with
  | none =>
    simp [extractLineItems, findAll_of_findFirst_none _ _ hm, lineItemsLoop]
  | some m =>
    simp [extractLineItems, findAll_of_findFirst_some _ _ _ hm, lineItemsLoop]

/-- The first line item of a text comes from its leftmost match, with the
shortest description, and the other items are those of the text after that
match. -/
theorem extractLineItems_first (tbl : Char → Char) (orders : Nat → List (Str × List Str))
    (pre desc ws amt rest : Str) (hocc : IsOccurrence desc ws amt)
    (hleft : ∀ p1 p2, pre = p1 ++ p2 → p2 ≠ [] →
      ¬ StartsMatch (p2 ++ desc ++ ws ++ amt ++ rest))
    (hshort : ∀ d1 d2, desc = d1 ++ d2 → d1 ≠ [] → d2 ≠ [] →
      ¬ StartsAmount (d2 ++ ws ++ amt ++ rest)) :
    extractLineItems tbl orders (pre ++ desc ++ ws ++ amt ++ rest) =
      ⟨stringsTrimSpace desc, amt, categorizeItem tbl (orders 0) (stringsTrimSpace desc)⟩ ::
        extractLineItems tbl (fun i => orders (i + 1)) rest := by
  have hm : pattern.findFirst (pre ++ desc ++ ws ++ amt ++ rest) =
      some ([desc ++ ws ++ amt, desc, amt], rest) := by
    rw [findFirst_eq_some]
    refine ⟨pre, desc ++ ws ++ amt ++ rest, by simp, ?_, ?_⟩
    · rw [matchHere_eq_some]
      exact ⟨desc, ws, amt, hocc, rfl, rfl, hshort⟩
    · intro p1 p2 e hp2
      rw [matchHere_eq_none]
      intro h
      exact hleft p1 p2 e hp2 (by simpa using h)
  simp only [extractLineItems, findAll_of_findFirst_some _ _ _ hm, lineItemsLoop]
  rw [lineItemsLoop_shift]
  rfl

theorem unicodeIsSpace_of_perl (c : Char) (h : isPerlSpace c = true) :
    unicodeIsSpace c = true := by
  simp only [isPerlSpace, Bool.or_eq_true, beq_iff_eq] at h
  rcases h with (((rfl | rfl) | rfl) | rfl) | rfl <;> decide

theorem stringsTrimSpace_eq_self (d : Str)
    (hhead : ∀ c, d.head? = some c → unicodeIsSpace c = false)
    (hlast : ∀ c, d.getLast? = some c → unicodeIsSpace c = false) :
    stringsTrimSpace d = d := by
  have h1 : d.dropWhile unicodeIsSpace = d := by
    cases d with
    | nil => rfl
    | cons x xs =>
      have := hhead x rfl
      simp [List.dropWhile, this]
  have h2 : d.reverse.dropWhile unicodeIsSpace = d.reverse := by
    cases hr : d.reverse with
    | nil => rfl
    | cons x xs =>
      have hx : d.getLast? = some x := by
        rw [← List.head?_reverse, hr]; rfl
      have := hlast x hx
      simp [List.dropWhile, this]
  unfold stringsTrimSpace
  rw [h1, h2, List.reverse_reverse]

/-- No match of the pattern starts at a newline. -/
theorem not_startsMatch_newline (t : Str) : ¬ StartsMatch ('\n' :: t) := by
  rintro ⟨desc, ws, amt, rest, ⟨hd, hall, -, -, -⟩, e⟩
  cases desc with
  | nil => exact hd rfl
  | cons x xs =>
    simp only [List.cons_append, List.cons.injEq] at e
    exact hall x (List.mem_cons_self _ _) e.1.symm

theorem extractLineItems_newline (tbl : Char → Char) (orders : Nat → List (Str × List Str))
    (t : Str) : extractLineItems tbl orders ('\n' :: t) = extractLineItems tbl orders t := by
  have h : pattern.findFirst ('\n' :: t) = pattern.findFirst t := by
    rw [Regex.findFirst, (matchHere_eq_none _).2 (not_startsMatch_newline t)]
  unfold extractLineItems
  cases hm : pattern.findFirst t with
  | none =>
    rw [findAll_of_findFirst_none _ _ hm, findAll_of_findFirst_none _ _ (h.trans hm)]
  | some m =>
    rw [findAll_of_findFirst_some _ _ _ hm, findAll_of_findFirst_some _ _ _ (h.trans hm)]

theorem extractLineItems_nil (tbl : Char → Char) (orders : Nat → List (Str × List Str)) :
    extractLineItems tbl orders [] = [] := rfl

/-- After a description that ends in a character other than white space and
holds no white space followed by an amount, no shorter description is
followed by white space and an amount. -/
theorem not_startsAmount_inner (d2 x : Str) (hd2 : d2 ≠ [])
    (hlast : ∀ c, d2.getLast? = some c → isPerlSpace c = false)
    (hno : ∀ pre t, d2 = pre ++ t → ¬ StartsAmount t) :
    ¬ StartsAmount (d2 ++ ' ' :: x) := by
  rintro ⟨ws, amt, r, hws, hwsall, hamt, e⟩
  rw [List.append_assoc] at e
  rcases List.append_eq_append_iff.1 e with ⟨a', ha, hb⟩ | ⟨c', ha, hb⟩
  · -- the white space would cover the end of `d2`
    have hl : d2.getLast? = some (d2.getLast hd2) := List.getLast?_eq_getLast _ hd2
    have hmem : d2.getLast hd2 ∈ ws := by
      rw [ha]; exact List.mem_append_left _ (List.getLast_mem hd2)
    have h1 := hlast _ hl
    rw [hwsall _ hmem] at h1
    exact Bool.noConfusion h1
  · rcases List.append_eq_append_iff.1 hb with ⟨a'', ha2, hb2⟩ | ⟨c'', ha2, hb2⟩
    · -- the amount would lie inside `d2`
      exact hno [] d2 rfl ⟨ws, amt, a'', hws, hwsall, hamt, by rw [ha, ha2]; simp⟩
    · cases c'' with
      | nil =>
        simp only [List.append_nil] at ha2
        exact hno [] d2 rfl ⟨ws, amt, [], hws, hwsall, hamt, by rw [ha, ha2]; simp⟩
      | cons y ys =>
        simp only [List.cons_append, List.cons.injEq] at hb2
        have hy : y ∈ amt := by rw [ha2]; simp
        have := hamt.no_space y hy
        rw [← hb2.1] at this
        exact absurd this (by decide)

theorem map_enumFrom_succ {α β : Type} (f : Nat × α → β) (n : Nat) (l : List α) :
    (l.enumFrom (n + 1)).map f = (l.enumFrom n).map (fun p => f (p.1 + 1, p.2)) := by
  induction l generalizing n with
  | nil => rfl
  | cons x xs ih =>
    simp only [List.enumFrom_cons, List.map_cons]
    rw [ih (n + 1)]

/-- The first line of a text of clean lines gives the first item, and the
parsing goes on after the amount. -/
theorem extractLineItems_clean_line (tbl : Char → Char)
    (orders : Nat → List (Str × List Str)) (d a rest : Str)
    (hd : IsCleanDescription d) (ha : IsAmount a) :
    extractLineItems tbl orders (d ++ ' ' :: a ++ rest) =
      ⟨d, a, categorizeItem tbl (orders 0) d⟩ ::
        extractLineItems tbl (fun i => orders (i + 1)) rest := by
  obtain ⟨hne, hhead, hlast, hnl, hno⟩ := hd
  have h := extractLineItems_first tbl orders [] d [' '] a rest
    ⟨hne, hnl, by simp, by
      intro c hc
      rw [List.mem_singleton.1 hc]; decide, ha⟩
    (by
      intro p1 p2 e hp2
      exfalso
      cases p1 <;> cases p2 <;> simp at e hp2)
    (by
      intro d1 d2 e hd1 hd2
      have hl2 : ∀ c, d2.getLast? = some c → isPerlSpace c = false := by
        intro c hc
        have : d.getLast? = some c := by
          rw [e, List.getLast?_append, hc]; rfl
        have hu := hlast c this
        cases hp : isPerlSpace c with
        | false => rfl
        | true => rw [unicodeIsSpace_of_perl c hp] at hu; exact Bool.noConfusion hu
      have := not_startsAmount_inner d2 (a ++ rest) hd2 hl2
        (fun pre t e2 => hno (d1 ++ pre) t (by rw [e, e2]; simp))
      simpa using this)
  rw [stringsTrimSpace_eq_self d hhead hlast] at h
  simpa using h

theorem isCleanDescription_of_check (d : Str) (h : cleanCheck d = true) :
    IsCleanDescription d := by
  simp only [cleanCheck, Bool.and_eq_true, Bool.not_eq_true', List.all_eq_true,
    List.isEmpty_iff, bne_iff_ne, ne_eq, List.mem_tails] at h
  obtain ⟨⟨⟨⟨h1, h2⟩, h3⟩, h4⟩, h5⟩ := h
  refine ⟨?_, ?_, ?_, h4, ?_⟩
  · intro e; rw [e] at h1; simp at h1
  · intro c hc; rw [hc] at h2; simpa using h2
  · intro c hc; rw [hc] at h3; simpa using h3
  · intro pre t e
    have := h5 t (by rw [e]; exact List.suffix_append _ _)
    exact (run_tailRegex_eq_nil_iff t).1 this

theorem isAmount_of_check (a : Str) (h : amountCheck a = true) : IsAmount a := by
  simp only [amountCheck, List.any_eq_true, List.isEmpty_iff] at h
  obtain ⟨m, hm, he⟩ := h
  obtain ⟨amt, hamt, e, -⟩ := (mem_run_amountRegex a m).1 hm
  rw [he, List.append_nil] at e
  rw [e]; exact hamt

/-! ## The claims about the line-item pattern -/

/-- C3, as stated, fails twice.  In `a 1.23 4.56` the run `1.23`, a space
and the number `4.56` are an occurrence, and the parser yields the single
item of `a 1.23`: no item has the amount `4.56`.  In the text of two spaces
and `1.23` no character other than a space is followed by white space, so
there is no occurrence, and the parser yields one item, whose description
is empty. -/
theorem extractLineItems_occurrence_counterexample :
    ("a 1.23 4.56".toList = "a ".toList ++ "1.23".toList ++ " ".toList ++ "4.56".toList ∧
      IsAmount "4.56".toList ∧
      extractLineItems id (fun _ => CATEGORY_MAP) "a 1.23 4.56".toList =
        [⟨"a".toList, "1.23".toList, "uncategorized".toList⟩]) ∧
    ((¬ ∃ pre run sp amt post, "  1.23".toList = pre ++ run ++ sp ++ amt ++ post ∧
        run ≠ [] ∧ (∀ c ∈ run, c ≠ ' ') ∧ sp ≠ [] ∧
        (∀ c ∈ sp, unicodeIsSpace c = true) ∧ IsAmount amt) ∧
      extractLineItems id (fun _ => CATEGORY_MAP) "  1.23".toList =
        [⟨[], "1.23".toList, "uncategorized".toList⟩]) := by
  refine ⟨⟨by decide, isAmount_of_check _ (by decide), by decide⟩, ?_, by decide⟩
  rintro ⟨pre, run, sp, amt, post, e, hrun, hrunall, hsp, hspall, -⟩
  -- the last character of the run and the first of the spaces are adjacent
  obtain ⟨run', x, rfl⟩ : ∃ run' x, run = run' ++ [x] :=
    ⟨run.dropLast, run.getLast hrun, (List.dropLast_append_getLast hrun).symm⟩
  cases sp with
  | nil => exact hsp rfl
  | cons y ys =>
    have hx : x ≠ ' ' := hrunall x (by simp)
    have hy : unicodeIsSpace y = true := hspall y (List.mem_cons_self _ _)
    have hadj : ∀ (l : Str) (A B : Str), l = A ++ x :: y :: B → (x, y) ∈ l.zip l.tail := by
      intro l A
      induction A generalizing l with
      | nil => intro B e; rw [e]; simp
      | cons a as ih =>
        intro B e
        rw [e]
        cases as with
        | nil => simp
        | cons b bs =>
          have := ih (b :: bs ++ x :: y :: B) B rfl
          simp only [List.cons_append, List.tail_cons, List.zip_cons_cons, List.mem_cons] at this ⊢
          right; exact this
    have hmem := hadj "  1.23".toList (pre ++ run') (ys ++ amt ++ post) (by rw [e]; simp)
    have hall : ∀ p ∈ "  1.23".toList.zip "  1.23".toList.tail,
        ¬ (p.1 ≠ ' ' ∧ unicodeIsSpace p.2 = true) := by decide
    exact hall _ hmem ⟨hx, hy⟩

/-- C3, amended: the parser yields one line item for each match that a scan
from left to right finds, and none for an occurrence that overlaps an
earlier match.  A text yields zero items exactly when no match starts in
it, a match being one or more characters other than a newline, then white
space, then an amount; otherwise its first item comes from the leftmost
match, taken with the shortest description, has the trimmed description and
the amount of that match, and is followed by the items of the text after
the amount. -/
theorem extractLineItems_matches (tbl : Char → Char)
    (orders : Nat → List (Str × List Str)) (text : Str) :
    (extractLineItems tbl orders text = [] ↔
      ∀ pre t, text = pre ++ t → ¬ StartsMatch t) ∧
    ∀ pre desc ws amt rest, text = pre ++ desc ++ ws ++ amt ++ rest →
      IsOccurrence desc ws amt →
      (∀ p1 p2, pre = p1 ++ p2 → p2 ≠ [] →
        ¬ StartsMatch (p2 ++ desc ++ ws ++ amt ++ rest)) →
      (∀ d1 d2, desc = d1 ++ d2 → d1 ≠ [] → d2 ≠ [] →
        ¬ StartsAmount (d2 ++ ws ++ amt ++ rest)) →
      extractLineItems tbl orders text =
        ⟨stringsTrimSpace desc, amt,
          categorizeItem tbl (orders 0) (stringsTrimSpace desc)⟩ ::
          extractLineItems tbl (fun i => orders (i + 1)) rest := by
  refine ⟨extractLineItems_eq_nil tbl orders text, ?_⟩
  intro pre desc ws amt rest e hocc hleft hshort
  rw [e]
  exact extractLineItems_first tbl orders pre desc ws amt rest hocc hleft hshort

/-- The amended C3 at the text `a 1.23 4.56`: the one item is that of the
match `a 1.23`, and the text after it, a space and `4.56`, yields none. -/
theorem extractLineItems_matches_witness :
    extractLineItems id (fun _ => CATEGORY_MAP) "a 1.23 4.56".toList =
      ⟨stringsTrimSpace "a".toList, "1.23".toList,
        categorizeItem id CATEGORY_MAP (stringsTrimSpace "a".toList)⟩ ::
        extractLineItems id (fun _ => CATEGORY_MAP) " 4.56".toList :=
  (extractLineItems_matches id (fun _ => CATEGORY_MAP) "a 1.23 4.56".toList).2
    [] "a".toList " ".toList "1.23".toList " 4.56".toList (by decide)
    ⟨by decide, by decide, by decide, by decide, isAmount_of_check _ (by decide)⟩
    (by
      intro p1 p2 e hp2
      exfalso
      cases p1 <;> cases p2 <;> simp at e hp2)
    (by
      intro d1 d2 e hd1 hd2
      exfalso
      cases d1 with
      | nil => exact hd1 rfl
      | cons a as =>
        cases d2 with
        | nil => exact hd2 rfl
        | cons b bs =>
          have := congrArg List.length e
          simp at this)

/-- C4: a text made of lines, each a clean description, a space and an
amount, joined by newlines, yields one line item per line, in the order of
the lines, with the description and the amount of the line and the category
`categorizeItem` gives the description. -/
theorem extractLineItems_lines (tbl : Char → Char) (orders : Nat → List (Str × List Str))
    (lines : List (Str × Str))
    (hlines : ∀ l ∈ lines, IsCleanDescription l.1 ∧ IsAmount l.2) :
    extractLineItems tbl orders
        (List.intercalate ['\n'] (lines.map (fun l => l.1 ++ ' ' :: l.2))) =
      lines.enum.map (fun il =>
        ⟨il.2.1, il.2.2, categorizeItem tbl (orders il.1) il.2.1⟩) := by
  induction lines generalizing orders with
  | nil => rfl
  | cons l ls ih =>
    obtain ⟨hd, ha⟩ := hlines l (List.mem_cons_self _ _)
    have hrest : ∀ l' ∈ ls, IsCleanDescription l'.1 ∧ IsAmount l'.2 :=
      fun l' h' => hlines l' (List.mem_cons_of_mem _ h')
    have hih := ih (fun i => orders (i + 1)) hrest
    simp only [List.enum, List.enumFrom_cons, List.map_cons]
    rw [map_enumFrom_succ]
    cases ls with
    | nil =>
      have e : List.intercalate ['\n'] [l.1 ++ ' ' :: l.2] = l.1 ++ ' ' :: l.2 ++ [] := by
        simp [List.intercalate]
      simp only [List.map_nil]
      rw [e, extractLineItems_clean_line tbl orders l.1 l.2 [] hd ha]
      rfl
    | cons l' ls' =>
      have e : List.intercalate ['\n']
            ((l.1 ++ ' ' :: l.2) :: (List.map (fun l => l.1 ++ ' ' :: l.2) (l' :: ls'))) =
          l.1 ++ ' ' :: l.2 ++ '\n' :: List.intercalate ['\n']
            (List.map (fun l => l.1 ++ ' ' :: l.2) (l' :: ls')) := by
        simp [List.intercalate, List.intersperse]
      rw [e, extractLineItems_clean_line tbl orders l.1 l.2 _ hd ha,
        extractLineItems_newline, hih]
      rfl

/-- C4 at its two texts: `Whole Foods 23.45` gives the one item of
`groceries`, and `Best Buy 199.99`, a newline and `Cafe Luna 12.50` give the
items of `electronics` and `dining`. -/
theorem extractLineItems_lines_witness :
    extractLineItems id (fun _ => CATEGORY_MAP) "Whole Foods 23.45".toList =
        [⟨"Whole Foods".toList, "23.45".toList, "groceries".toList⟩] ∧
    extractLineItems id (fun _ => CATEGORY_MAP) "Best Buy 199.99\nCafe Luna 12.50".toList =
        [⟨"Best Buy".toList, "199.99".toList, "electronics".toList⟩,
         ⟨"Cafe Luna".toList, "12.50".toList, "dining".toList⟩] :=
  ⟨extractLineItems_lines id (fun _ => CATEGORY_MAP)
      [("Whole Foods".toList, "23.45".toList)]
      (by
        intro l hl
        rw [List.mem_singleton.1 hl]
        exact ⟨isCleanDescription_of_check _ (by decide), isAmount_of_check _ (by decide)⟩),
    extractLineItems_lines id (fun _ => CATEGORY_MAP)
      [("Best Buy".toList, "199.99".toList), ("Cafe Luna".toList, "12.50".toList)]
      (by
        intro l hl
        simp only [List.mem_cons, List.mem_singleton, List.not_mem_nil, or_false] at hl
        rcases hl with rfl | rfl
        · exact ⟨isCleanDescription_of_check _ (by decide), isAmount_of_check _ (by decide)⟩
        · exact ⟨isCleanDescription_of_check _ (by decide), isAmount_of_check _ (by decide)⟩)⟩

/-- C6 at a failing input: in `Total`, a newline and `12.50` the description
stands on the first line and the amount on the second, and the parser
pairs them in one item, under every case table and iteration order. -/
theorem extractLineItems_pairs_across_lines (tbl : Char → Char)
    (orders : Nat → List (Str × List Str)) :
    stringsSplit '\n' "Total\n12.50".toList = ["Total".toList, "12.50".toList] ∧
    (extractLineItems tbl orders "Total\n12.50".toList).map
        (fun item => (item.description, item.amount)) =
      [("Total".toList, "12.50".toList)] :=
  ⟨by decide, by rfl⟩

/-- C7 at a failing input: in `x 12.345` the number has three decimal
digits, and the parser yields the amount `12.34`, which the digit `5`
follows in the text. -/
theorem extractLineItems_amount_cut (tbl : Char → Char)
    (orders : Nat → List (Str × List Str)) :
    (extractLineItems tbl orders "x 12.345".toList).map
        (fun item => (item.description, item.amount)) =
      [("x".toList, "12.34".toList)] ∧
    "x 12.345".toList = "x ".toList ++ "12.34".toList ++ "5".toList :=
  ⟨by rfl, by decide⟩

/-! ## The claims about startup, the main loop and the transactions -/

theorem receiptLoop_append {σ : Type} (process : σ → Str → Except Str (List LineItem) × σ)
    (w : σ) (xs ys : List DirEntry) :
    receiptLoop process w (xs ++ ys) =
      ((receiptLoop process w xs).1 ++
          (receiptLoop process (receiptLoop process w xs).2 ys).1,
        (receiptLoop process (receiptLoop process w xs).2 ys).2) := by
  induction xs generalizing w with
  | nil => rfl
  | cons f rest ih =>
    by_cases hf : f.isDir = true
    · simp only [List.cons_append, receiptLoop, hf, if_true]
      exact ih w
    · simp only [List.cons_append, receiptLoop, hf, Bool.false_eq_true, if_false]
      have := ih (process w (imagePathOf f)).2
      simp only [List.append_eq] at this ⊢
      rw [this]

theorem receiptLoop_calls {σ : Type} (process : σ → Str → Except Str (List LineItem) × σ)
    (w : σ) (receiptFiles : List DirEntry) :
    (receiptLoop process w receiptFiles).1.map Prod.fst =
      (receiptFiles.filter (fun f => !f.isDir)).map imagePathOf := by
  induction receiptFiles generalizing w with
  | nil => rfl
  | cons f rest ih =>
    by_cases hf : f.isDir = true
    · simp only [receiptLoop, hf, if_true, List.filter_cons, Bool.not_true,
        Bool.false_eq_true, if_false]
      exact ih w
    · have hf' : f.isDir = false := by simpa using hf
      simp only [receiptLoop, hf', Bool.false_eq_true, if_false, List.filter_cons,
        Bool.not_false, if_true, List.map_cons]
      rw [ih]

/-- C5 at a failing input: a file of the two lines `tok` and `bud`, the
second ended by a newline, is split in three pieces, the last one empty;
the check passes, `ACCOUNT_ID` is the empty string and `main` goes on to the
loop over the receipts.  Without the final newline the check fails. -/
theorem loadCredentials_two_lines_newline :
    stringsSplit '\n' "tok\nbud\n".toList = ["tok".toList, "bud".toList, []] ∧
    loadCredentials (.ok "tok\nbud\n".toList) = .ok ⟨"tok".toList, "bud".toList, []⟩ ∧
    (∀ (process : Unit → Str → Except Str (List LineItem) × Unit)
        (receiptFiles : List DirEntry),
      main (.ok "tok\nbud\n".toList) (.ok receiptFiles) process () =
        .completed ⟨"tok".toList, "bud".toList, []⟩
          (receiptLoop process () receiptFiles).1 (receiptLoop process () receiptFiles).2) ∧
    ∃ msg, loadCredentials (.ok "tok\nbud".toList) = .error msg :=
  ⟨by decide, rfl, fun _ _ => rfl, ⟨_, rfl⟩⟩

/-- C8 at a failing input: for the amount `2.01` the parsed `float64` lies
below 2.01, its product by 1000 lies below 2010, and the integer placed in
the transaction is 2009, not 2010. -/
theorem transactionAmount_truncates :
    parseFloat "2.01".toList = some ⟨4526117625507348, -51⟩ ∧
    transactionAmount "2.01".toList = some 2009 ∧
    buildTransactions "acct".toList [⟨"Pen".toList, "2.01".toList, "uncategorized".toList⟩] =
      some [⟨"acct".toList, "2024-10-06".toList, 2009, "Pen".toList, "uncategorized".toList,
        "Imported from receipt".toList, "cleared".toList, true⟩] ∧
    (2009 : Int) ≠ 10 * digitsValue "201".toList :=
  ⟨by decide, by decide, by decide, by decide⟩

/-- C9: whatever the processing of a receipt does and returns, the main loop
calls it once for each entry that is not a directory, in the order of the
listing, and for no directory; and the loop over a listing in which the
entry `f` stands between `pre` and `post` is the loop over `pre`, then
nothing for a directory `f` and otherwise the one call for `f`, whose
failure is logged, then the loop over `post`, which a failure at `f` does
not cut short. -/
theorem receiptLoop_processes_each {σ : Type}
    (process : σ → Str → Except Str (List LineItem) × σ) (w : σ) :
    (∀ receiptFiles, (receiptLoop process w receiptFiles).1.map Prod.fst =
      (receiptFiles.filter (fun f => !f.isDir)).map imagePathOf) ∧
    ∀ pre f post,
      receiptLoop process w (pre ++ f :: post) =
        if f.isDir then
          ((receiptLoop process w pre).1 ++
              (receiptLoop process (receiptLoop process w pre).2 post).1,
            (receiptLoop process (receiptLoop process w pre).2 post).2)
        else
          ((receiptLoop process w pre).1 ++
              (imagePathOf f,
                outputOf f (process (receiptLoop process w pre).2 (imagePathOf f)).1) ::
              (receiptLoop process
                (process (receiptLoop process w pre).2 (imagePathOf f)).2 post).1,
            (receiptLoop process
              (process (receiptLoop process w pre).2 (imagePathOf f)).2 post).2) := by
  refine ⟨receiptLoop_calls process w, ?_⟩
  intro pre f post
  rw [receiptLoop_append]
  by_cases hf : f.isDir = true
  · simp only [receiptLoop, hf, if_true]
  · simp only [receiptLoop, hf, Bool.false_eq_true, if_false]

end YnabReceipts
